import Mathlib

/-!
Verification of the management command `populate_expiry_date`
(lms/djangoapps/verify_student/management/commands/populate_expiry_date.py).

The command scans the SoftwareSecurePhotoVerification table for rows with
status `approved`, walks the approved user ids in ascending windows of width
`batch_size`, and for each distinct user in a window finds that user's most
recently updated approved verification and sets its `expiry_date` to
`updated_at + timedelta(days=settings.VERIFY_STUDENT["DAYS_GOOD_FOR"])`.

Shallow embedding choices:
* A table row (`SoftwareSecurePhotoVerification`) is a `Record` with its
  primary key `id`, the `user_id` foreign-key value, the `status` string,
  the `updated_at` timestamp and the nullable `expiry_date`.
  Timestamps are abstract `Nat` instants; adding the configured number of
  validity days is modelled as `Nat` addition (`updated_at + days_good_for`),
  which keeps the affine structure of `datetime + timedelta` that the claims
  depend on.
* The database is a `Store`, a list of records; row order is the table's
  iteration order.  `save()` persists by primary key: it replaces the row
  whose `id` matches.
* Django querysets are lazy, so `self.sspv` (built in `Command.__init__`) is
  re-evaluated against the current store at each use; `sspv` below is hence
  a function of the store.  `order_by('-user_id')` is modelled by an
  insertion sort with descending `user_id`; `.latest('updated_at')` picks a
  row of maximal `updated_at` (the database leaves ties unspecified; the
  model deterministically keeps the first such row in queryset order).
* The `while` loop keeps the invariant `batch_stop = batch_start + batch_size`
  (established at line 58 and maintained at lines 74-75), so the loop is
  embedded with `batch_start` alone and the stop computed from it.  For
  `batch_size = 0` the source loop would never terminate; the embedding's
  loop guard additionally requires `0 < batch_size` and all loop theorems
  assume a positive batch size, as the command's contract does.
* `handleLoop` additionally returns the list of user ids processed (the
  source logs one line per updated record), which lets per-run counting
  properties be stated.
* A second family (`handleE` etc.) models `save()` raising: a save on a row
  whose id is in `failIds` raises, and the exception value carries the store
  as it stood when the exception was raised (the failing save persists
  nothing, earlier saves stay persisted, nothing is retried or rolled back).
-/

/-- A row of SoftwareSecurePhotoVerification, restricted to the columns the
command touches: primary key, user id, status, update timestamp and the
nullable expiry timestamp. -/
@[ext]
structure Record where
  id : Nat
  user_id : Nat
  status : String
  updated_at : Nat
  expiry_date : Option Nat
deriving DecidableEq, Repr

/-- The table of verification records. -/
abbrev Store := List Record

/-- The status filter `status='approved'` (line 43). -/
def approvedRec (r : Record) : Bool :=
  r.status == "approved"

/-- Insert a record into a list kept in descending `user_id` order. -/
def insertDesc (r : Record) : List Record → List Record
  | [] => [r]
  | s :: rest =>
      if s.user_id ≤ r.user_id then r :: s :: rest else s :: insertDesc r rest

/-- Sort records by descending `user_id` (the `order_by('-user_id')` of the
base queryset). -/
def sortDesc : List Record → List Record
  | [] => []
  | r :: rest => insertDesc r (sortDesc rest)

/-- The base queryset built in `Command.__init__` (line 43):
`SoftwareSecurePhotoVerification.objects.filter(status='approved').order_by('-user_id')`,
evaluated lazily against the current store. -/
def sspv (store : Store) : List Record :=
  sortDesc (store.filter approvedRec)

/-- `.latest('updated_at')`: a row of maximal `updated_at`, `none` on an
empty queryset (where Django would raise DoesNotExist).  Ties keep the
earlier row. -/
def latestBy : List Record → Option Record
  | [] => none
  | r :: rest =>
      match latestBy rest with
      | none => some r
      | some m => if r.updated_at < m.updated_at then some m else some r

/-- `Command.find_recent_verification` (lines 77-81): the most recent
approved verification of `uid`, looked up in the whole filtered table
`self.sspv.filter(user_id=user_id).latest('updated_at')`. -/
def find_recent_verification (store : Store) (uid : Nat) : Option Record :=
  latestBy ((sspv store).filter (fun r => r.user_id == uid))

/-- Whether `uid` owns at least one approved record. -/
def hasApprovedUser (store : Store) (uid : Nat) : Bool :=
  (find_recent_verification store uid).isSome

/-- Lines 69-70: `recent_verification.expiry_date = recent_verification.updated_at
+ timedelta(days=settings.VERIFY_STUDENT["DAYS_GOOD_FOR"])`. -/
def applyExpiry (days_good_for : Nat) (r : Record) : Record :=
  { r with expiry_date := some (r.updated_at + days_good_for) }

/-- `recent_verification.save()` (line 71): persist by primary key. -/
def save (store : Store) (r : Record) : Store :=
  store.map fun s => if s.id = r.id then r else s

/-- The body of the `for user in users` loop (lines 67-72) for one user. -/
def processUser (days_good_for : Nat) (store : Store) (uid : Nat) : Store :=
  match find_recent_verification store uid with
  | some r => save store (applyExpiry days_good_for r)
  | none => store

/-- The `for user in users` loop (lines 67-72). -/
def processUsers (days_good_for : Nat) (store : Store) (uids : List Nat) : Store :=
  uids.foldl (processUser days_good_for) store

/-- Lines 64-65: the distinct user ids of approved records in the window
`[lo, hi)`:
`self.sspv.filter(user_id__gte=batch_start, user_id__lt=batch_stop)`
followed by `.order_by().values('user_id').distinct()`. -/
def windowUsers (store : Store) (lo hi : Nat) : List Nat :=
  (((sspv store).filter fun r => decide (lo ≤ r.user_id ∧ r.user_id < hi)).map
    (fun r => r.user_id)).dedup

/-- The `while batch_start <= max_user_id` loop (lines 63-75), with
`batch_stop = batchStart + batch_size` kept implicit (invariant of lines
58, 74-75).  Also returns the processed user ids in order.  The source loop
does not terminate for `batch_size = 0`; the guard `0 < batch_size` makes
the embedding total and is assumed by every theorem about the loop. -/
def handleLoop (days_good_for batch_size maxId batchStart : Nat) (store : Store) :
    Store × List Nat :=
  if h : batchStart ≤ maxId ∧ 0 < batch_size then
    let us := windowUsers store batchStart (batchStart + batch_size)
    let store1 := processUsers days_good_for store us
    let rest := handleLoop days_good_for batch_size maxId (batchStart + batch_size) store1
    (rest.1, us ++ rest.2)
  else (store, [])
termination_by maxId + 1 - batchStart
decreasing_by omega

/-- `Command.handle` (lines 45-75): `max_user_id = self.sspv[0].user_id`,
`batch_start = self.sspv.reverse()[0].user_id` (IndexError on an empty
queryset returns early, lines 59-61), then the batch loop.  Returns the
final store. -/
def handle (days_good_for batch_size : Nat) (store : Store) : Store :=
  match (sspv store).head?, (sspv store).reverse.head? with
  | some mx, some mn => (handleLoop days_good_for batch_size mx.user_id mn.user_id store).1
  | _, _ => store

/-- The user ids processed by a run of `handle`, in order (the source emits
one log line per processed record, line 72). -/
def handleTrace (days_good_for batch_size : Nat) (store : Store) : List Nat :=
  match (sspv store).head?, (sspv store).reverse.head? with
  | some mx, some mn => (handleLoop days_good_for batch_size mx.user_id mn.user_id store).2
  | _, _ => []

/-- Whether `s` is the record the command's per-user lookup selects for its
own user, i.e. the row written back for user `s.user_id`. -/
def isSelected (store : Store) (s : Record) : Bool :=
  match find_recent_verification store s.user_id with
  | some r => r.id == s.id
  | none => false

/-- The per-record effect of one complete run on a store whose selected
rows are computed from `store0`: selected rows get their expiry populated,
all other rows are untouched. -/
def runUpdate (days_good_for : Nat) (store0 : Store) (s : Record) : Record :=
  if isSelected store0 s then applyExpiry days_good_for s else s

/-- Partial-run effect: rows selected from `store0` whose user is already in
`U` have been written, the rest are still untouched. -/
def updW (days_good_for : Nat) (store0 : Store) (U : List Nat) (s : Record) : Record :=
  if s.user_id ∈ U ∧ isSelected store0 s then applyExpiry days_good_for s else s

/-- One user of the per-user loop when `save()` may raise: a save on a row
whose id is in `failIds` raises, carrying the store as it stood (the
failing save persists nothing). -/
def processUserE (days_good_for : Nat) (failIds : List Nat) (store : Store) (uid : Nat) :
    Except Store Store :=
  match find_recent_verification store uid with
  | some r =>
      if (applyExpiry days_good_for r).id ∈ failIds then Except.error store
      else Except.ok (save store (applyExpiry days_good_for r))
  | none => Except.ok store

/-- The per-user loop with raising saves: the first raise aborts the loop
(no retry), keeping every earlier save. -/
def processUsersE (days_good_for : Nat) (failIds : List Nat) (store : Store) :
    List Nat → Except Store Store
  | [] => Except.ok store
  | uid :: rest =>
      match processUserE days_good_for failIds store uid with
      | Except.error st => Except.error st
      | Except.ok st => processUsersE days_good_for failIds st rest

/-- The batch loop with raising saves: an exception raised in a window
propagates out of the loop; earlier windows' saves stay persisted. -/
def handleLoopE (days_good_for batch_size maxId batchStart : Nat) (failIds : List Nat)
    (store : Store) : Except Store Store :=
  if h : batchStart ≤ maxId ∧ 0 < batch_size then
    match processUsersE days_good_for failIds store
        (windowUsers store batchStart (batchStart + batch_size)) with
    | Except.error st => Except.error st
    | Except.ok st =>
        handleLoopE days_good_for batch_size maxId (batchStart + batch_size) failIds st
  else Except.ok store
termination_by maxId + 1 - batchStart
decreasing_by omega

/-- `Command.handle` when `save()` may raise: the exception (carrying the
store at raise time) propagates uncaught out of `handle`. -/
def handleE (days_good_for batch_size : Nat) (failIds : List Nat) (store : Store) :
    Except Store Store :=
  match (sspv store).head?, (sspv store).reverse.head? with
  | some mx, some mn =>
      handleLoopE days_good_for batch_size mx.user_id mn.user_id failIds store
  | _, _ => Except.ok store

/-- Whether processing user `uid` raises in the raising-save model: the
per-user loop saves `applyExpiry` of the user's selected record, and the
save raises exactly when that record's primary key is in `failIds`.  This
reads only columns the run never changes, so it is the same on the
original store and on any intermediate store of the run. -/
def failsAt (days_good_for : Nat) (failIds : List Nat) (store : Store) (uid : Nat) : Bool :=
  match find_recent_verification store uid with
  | some r => decide ((applyExpiry days_good_for r).id ∈ failIds)
  | none => false

/-- A concrete store used by the witnesses: user 42 owns two approved
records (updated at 5 and 1), user 7 only a pending one, user 9 one
approved record. -/
def exStore : Store :=
  [⟨1, 42, "approved", 5, none⟩, ⟨2, 42, "approved", 1, none⟩,
    ⟨3, 7, "pending", 3, none⟩, ⟨4, 9, "approved", 2, none⟩]

/-- A concrete store with no approved record. -/
def exEmpty : Store :=
  [⟨1, 3, "denied", 2, none⟩]

/-- A concrete store for the raising-save witness: the run processes user
8 first (descending queryset order), then user 5, whose save is made to
fail; user 8's already persisted update must be retained. -/
def exFail : Store :=
  [⟨1, 5, "approved", 10, none⟩, ⟨2, 8, "approved", 20, none⟩]

/-! ### Basic facts about the queryset embedding -/

theorem mem_insertDesc {x r : Record} {l : List Record} :
    x ∈ insertDesc r l ↔ x = r ∨ x ∈ l := by
  induction l with
  | nil => simp [insertDesc]
  | cons s rest ih =>
      by_cases h : s.user_id ≤ r.user_id
      · simp [insertDesc, h]
      · simp only [insertDesc, if_neg h, List.mem_cons, ih]
        tauto

theorem mem_sortDesc {x : Record} {l : List Record} : x ∈ sortDesc l ↔ x ∈ l := by
  induction l with
  | nil => simp [sortDesc]
  | cons r rest ih => simp [sortDesc, mem_insertDesc, ih]

theorem mem_sspv {x : Record} {store : Store} :
    x ∈ sspv store ↔ x ∈ store ∧ approvedRec x = true := by
  simp [sspv, mem_sortDesc, List.mem_filter]

theorem pairwise_insertDesc {r : Record} {l : List Record}
    (h : l.Pairwise fun a b => b.user_id ≤ a.user_id) :
    (insertDesc r l).Pairwise fun a b => b.user_id ≤ a.user_id := by
  induction l with
  | nil => simp [insertDesc]
  | cons s rest ih =>
      rcases List.pairwise_cons.1 h with ⟨hs, hrest⟩
      by_cases hle : s.user_id ≤ r.user_id
      · simp only [insertDesc, if_pos hle]
        refine List.pairwise_cons.2 ⟨?_, h⟩
        intro x hx
        rcases List.mem_cons.1 hx with rfl | hx
        · exact hle
        · exact Nat.le_trans (hs x hx) hle
      · simp only [insertDesc, if_neg hle]
        refine List.pairwise_cons.2 ⟨?_, ih hrest⟩
        intro x hx
        rcases mem_insertDesc.1 hx with rfl | hx
        · omega
        · exact hs x hx

theorem sorted_sortDesc (l : List Record) :
    (sortDesc l).Pairwise fun a b => b.user_id ≤ a.user_id := by
  induction l with
  | nil => simp [sortDesc]
  | cons r rest ih => exact pairwise_insertDesc ih

theorem sorted_sspv (store : Store) :
    (sspv store).Pairwise fun a b => b.user_id ≤ a.user_id :=
  sorted_sortDesc _

theorem sspv_head_max {store : Store} {m : Record}
    (hm : (sspv store).head? = some m) :
    ∀ x ∈ sspv store, x.user_id ≤ m.user_id := by
  cases hs : sspv store with
  | nil => rw [hs] at hm; simp at hm
  | cons h t =>
      rw [hs] at hm
      simp only [List.head?_cons, Option.some.injEq] at hm
      subst hm
      have hp := sorted_sspv store
      rw [hs] at hp
      intro x hx
      rcases List.mem_cons.1 hx with rfl | hx
      · exact Nat.le_refl _
      · exact List.rel_of_pairwise_cons hp hx

theorem sspv_revhead_min {store : Store} {m : Record}
    (hm : (sspv store).reverse.head? = some m) :
    ∀ x ∈ sspv store, m.user_id ≤ x.user_id := by
  have hp : (sspv store).reverse.Pairwise fun a b => a.user_id ≤ b.user_id := by
    rw [List.pairwise_reverse]
    exact sorted_sspv store
  cases hs : (sspv store).reverse with
  | nil => rw [hs] at hm; simp at hm
  | cons h t =>
      rw [hs] at hm
      simp only [List.head?_cons, Option.some.injEq] at hm
      subst hm
      rw [hs] at hp
      intro x hx
      have hx' : x ∈ (sspv store).reverse := List.mem_reverse.2 hx
      rw [hs] at hx'
      rcases List.mem_cons.1 hx' with rfl | hx'
      · exact Nat.le_refl _
      · exact List.rel_of_pairwise_cons hp hx'

/-! ### Facts about the most-recent lookup -/

theorem latestBy_eq_none {l : List Record} : latestBy l = none ↔ l = [] := by
  cases l with
  | nil => simp [latestBy]
  | cons r rest =>
      simp only [latestBy]
      cases latestBy rest with
      | none => simp
      | some m =>
          by_cases h : r.updated_at < m.updated_at <;> simp [h]

theorem latestBy_mem {l : List Record} {m : Record} (h : latestBy l = some m) :
    m ∈ l := by
  induction l generalizing m with
  | nil => simp [latestBy] at h
  | cons r rest ih =>
      simp only [latestBy] at h
      split at h
      · simp only [Option.some.injEq] at h
        subst h; exact List.mem_cons_self _ _
      · rename_i m0 hrest
        split at h
        · simp only [Option.some.injEq] at h
          subst h
          exact List.mem_cons_of_mem _ (ih hrest)
        · simp only [Option.some.injEq] at h
          subst h; exact List.mem_cons_self _ _

theorem latestBy_max {l : List Record} {m : Record} (h : latestBy l = some m) :
    ∀ x ∈ l, x.updated_at ≤ m.updated_at := by
  induction l generalizing m with
  | nil => simp
  | cons r rest ih =>
      simp only [latestBy] at h
      intro x hx
      split at h
      · rename_i hrest
        simp only [Option.some.injEq] at h
        subst h
        have hnil : rest = [] := latestBy_eq_none.1 hrest
        subst hnil
        rcases List.mem_cons.1 hx with rfl | hx
        · exact Nat.le_refl _
        · simp at hx
      · rename_i m0 hrest
        split at h
        · rename_i hlt
          simp only [Option.some.injEq] at h
          subst h
          rcases List.mem_cons.1 hx with rfl | hx
          · exact Nat.le_of_lt hlt
          · exact ih hrest x hx
        · rename_i hlt
          simp only [Option.some.injEq] at h
          subst h
          rcases List.mem_cons.1 hx with rfl | hx
          · exact Nat.le_refl _
          · exact Nat.le_trans (ih hrest x hx) (Nat.le_of_not_lt hlt)

theorem find_recent_some {store : Store} {uid : Nat} {r : Record}
    (h : find_recent_verification store uid = some r) :
    r ∈ store ∧ approvedRec r = true ∧ r.user_id = uid ∧
      ∀ s ∈ store, approvedRec s = true → s.user_id = uid →
        s.updated_at ≤ r.updated_at := by
  have hmem := latestBy_mem h
  rw [List.mem_filter] at hmem
  obtain ⟨hr, huid⟩ := hmem
  rw [mem_sspv] at hr
  simp only [beq_iff_eq] at huid
  refine ⟨hr.1, hr.2, huid, ?_⟩
  intro s hs hap hsuid
  refine latestBy_max h s ?_
  rw [List.mem_filter, mem_sspv]
  exact ⟨⟨hs, hap⟩, by simp [hsuid]⟩

theorem hasApprovedUser_iff {store : Store} {uid : Nat} :
    hasApprovedUser store uid = true ↔
      ∃ s ∈ store, approvedRec s = true ∧ s.user_id = uid := by
  rw [hasApprovedUser]
  constructor
  · intro h
    rw [Option.isSome_iff_exists] at h
    obtain ⟨r, hr⟩ := h
    obtain ⟨h1, h2, h3, _⟩ := find_recent_some hr
    exact ⟨r, h1, h2, h3⟩
  · intro ⟨s, hs, hap, huid⟩
    rw [Option.isSome_iff_exists]
    cases hfr : find_recent_verification store uid with
    | some r => exact ⟨r, rfl⟩
    | none =>
        exfalso
        rw [find_recent_verification] at hfr
        rw [latestBy_eq_none] at hfr
        have : s ∈ (sspv store).filter fun r => r.user_id == uid := by
          rw [List.mem_filter, mem_sspv]
          exact ⟨⟨hs, hap⟩, by simp [huid]⟩
        rw [hfr] at this
        simp at this

theorem isSelected_of_find {store : Store} {uid : Nat} {r : Record}
    (h : find_recent_verification store uid = some r) :
    isSelected store r = true := by
  have huid := (find_recent_some h).2.2.1
  rw [isSelected, huid, h]
  simp

/-! ### Shape preservation: the run only ever rewrites `expiry_date`, and
every queryset operation reads only the other columns. -/

/-- `f` preserves every column the queryset logic reads; only `expiry_date`
may change. -/
def PreservesShape (f : Record → Record) : Prop :=
  ∀ s, (f s).id = s.id ∧ (f s).user_id = s.user_id ∧ (f s).status = s.status ∧
    (f s).updated_at = s.updated_at

theorem filter_map_congr {f : Record → Record} {p : Record → Bool}
    (hp : ∀ s, p (f s) = p s) (l : List Record) :
    (l.map f).filter p = (l.filter p).map f := by
  induction l with
  | nil => rfl
  | cons s rest ih =>
      simp only [List.map_cons, List.filter_cons, hp s]
      by_cases h : p s = true
      · simp [h, ih]
      · simp [h, ih]

theorem insertDesc_map {f : Record → Record} (hf : PreservesShape f)
    (r : Record) (l : List Record) :
    insertDesc (f r) (l.map f) = (insertDesc r l).map f := by
  induction l with
  | nil => rfl
  | cons s rest ih =>
      simp only [List.map_cons, insertDesc]
      rw [(hf s).2.1, (hf r).2.1]
      by_cases h : s.user_id ≤ r.user_id
      · simp [h]
      · simp [h, ih]

theorem sortDesc_map {f : Record → Record} (hf : PreservesShape f)
    (l : List Record) :
    sortDesc (l.map f) = (sortDesc l).map f := by
  induction l with
  | nil => rfl
  | cons r rest ih =>
      simp only [List.map_cons, sortDesc, ih]
      exact insertDesc_map hf r (sortDesc rest)

theorem sspv_map {f : Record → Record} (hf : PreservesShape f) (store : Store) :
    sspv (store.map f) = (sspv store).map f := by
  unfold sspv
  rw [filter_map_congr (fun s => by unfold approvedRec; rw [(hf s).2.2.1]),
    sortDesc_map hf]

theorem latestBy_map {f : Record → Record} (hf : PreservesShape f)
    (l : List Record) :
    latestBy (l.map f) = (latestBy l).map f := by
  induction l with
  | nil => rfl
  | cons r rest ih =>
      simp only [List.map_cons, latestBy, ih]
      cases latestBy rest with
      | none => rfl
      | some m =>
          simp only [Option.map_some']
          rw [(hf r).2.2.2, (hf m).2.2.2]
          by_cases h : r.updated_at < m.updated_at <;> simp [h]

theorem find_recent_map {f : Record → Record} (hf : PreservesShape f)
    (store : Store) (uid : Nat) :
    find_recent_verification (store.map f) uid =
      (find_recent_verification store uid).map f := by
  unfold find_recent_verification
  rw [sspv_map hf, filter_map_congr (fun s => by rw [(hf s).2.1]),
    latestBy_map hf]

theorem windowUsers_map {f : Record → Record} (hf : PreservesShape f)
    (store : Store) (lo hi : Nat) :
    windowUsers (store.map f) lo hi = windowUsers store lo hi := by
  unfold windowUsers
  rw [sspv_map hf, filter_map_congr (fun s => by rw [(hf s).2.1]), List.map_map]
  congr 1
  apply List.map_congr_left
  intro a _
  exact (hf a).2.1

theorem isSelected_map {f : Record → Record} (hf : PreservesShape f)
    (store : Store) (s : Record) :
    isSelected (store.map f) (f s) = isSelected store s := by
  unfold isSelected
  rw [(hf s).2.1, find_recent_map hf]
  cases find_recent_verification store s.user_id with
  | none => rfl
  | some r =>
      simp only [Option.map_some']
      rw [(hf r).1, (hf s).1]

theorem applyExpiry_shape (d : Nat) : PreservesShape (applyExpiry d) := by
  intro s
  simp [applyExpiry]

theorem applyExpiry_of_shape {f : Record → Record} (hf : PreservesShape f)
    (d : Nat) (s : Record) :
    applyExpiry d (f s) = applyExpiry d s := by
  obtain ⟨h1, h2, h3, h4⟩ := hf s
  unfold applyExpiry
  apply Record.ext <;> simp [h1, h2, h3, h4]

theorem applyExpiry_idem (d : Nat) (s : Record) :
    applyExpiry d (applyExpiry d s) = applyExpiry d s := rfl

theorem updW_shape (d : Nat) (store0 : Store) (U : List Nat) :
    PreservesShape (updW d store0 U) := by
  intro s
  unfold updW
  split
  · exact applyExpiry_shape d s
  · exact ⟨rfl, rfl, rfl, rfl⟩

theorem runUpdate_shape (d : Nat) (store0 : Store) :
    PreservesShape (runUpdate d store0) := by
  intro s
  unfold runUpdate
  split
  · exact applyExpiry_shape d s
  · exact ⟨rfl, rfl, rfl, rfl⟩

theorem nodup_id_inj {store : Store}
    (h : (store.map fun r => r.id).Nodup) {s t : Record}
    (hs : s ∈ store) (ht : t ∈ store) (hid : s.id = t.id) : s = t :=
  List.inj_on_of_nodup_map h hs ht hid

/-! ### Window membership and loop unfolding -/

theorem mem_windowUsers {store : Store} {uid lo hi : Nat} :
    uid ∈ windowUsers store lo hi ↔
      hasApprovedUser store uid = true ∧ lo ≤ uid ∧ uid < hi := by
  unfold windowUsers
  rw [List.mem_dedup]
  simp only [List.mem_map, List.mem_filter, decide_eq_true_eq]
  constructor
  · rintro ⟨r, ⟨hr, hlo, hhi⟩, rfl⟩
    rw [mem_sspv] at hr
    exact ⟨hasApprovedUser_iff.2 ⟨r, hr.1, hr.2, rfl⟩, hlo, hhi⟩
  · rintro ⟨happ, hlo, hhi⟩
    obtain ⟨s, hs, hap, huid⟩ := hasApprovedUser_iff.1 happ
    exact ⟨s, ⟨mem_sspv.2 ⟨hs, hap⟩, huid ▸ hlo, huid ▸ hhi⟩, huid⟩

theorem nodup_windowUsers (store : Store) (lo hi : Nat) :
    (windowUsers store lo hi).Nodup :=
  List.nodup_dedup _

theorem handleLoop_stop {d b maxId batchStart : Nat} {store : Store}
    (h : maxId < batchStart) :
    handleLoop d b maxId batchStart store = (store, []) := by
  unfold handleLoop
  simp [Nat.not_le.2 h]

theorem handleLoop_step {d b maxId batchStart : Nat} {store : Store}
    (h1 : batchStart ≤ maxId) (h2 : 0 < b) :
    handleLoop d b maxId batchStart store =
      ((handleLoop d b maxId (batchStart + b)
          (processUsers d store (windowUsers store batchStart (batchStart + b)))).1,
        windowUsers store batchStart (batchStart + b) ++
          (handleLoop d b maxId (batchStart + b)
            (processUsers d store (windowUsers store batchStart (batchStart + b)))).2) := by
  conv_lhs => rw [handleLoop]
  rw [dif_pos ⟨h1, h2⟩]

theorem handleLoopE_stop {d b maxId batchStart : Nat} {failIds : List Nat}
    {store : Store} (h : maxId < batchStart) :
    handleLoopE d b maxId batchStart failIds store = Except.ok store := by
  unfold handleLoopE
  simp [Nat.not_le.2 h]

theorem handleLoopE_step {d b maxId batchStart : Nat} {failIds : List Nat}
    {store : Store} (h1 : batchStart ≤ maxId) (h2 : 0 < b) :
    handleLoopE d b maxId batchStart failIds store =
      match processUsersE d failIds store
          (windowUsers store batchStart (batchStart + b)) with
      | Except.error st => Except.error st
      | Except.ok st => handleLoopE d b maxId (batchStart + b) failIds st := by
  conv_lhs => rw [handleLoopE]
  rw [dif_pos ⟨h1, h2⟩]

/-! ### The partial-update invariant of the batch loop -/

theorem updW_congr {d : Nat} {store0 : Store} {U V : List Nat}
    (h : ∀ x, x ∈ U ↔ x ∈ V) :
    updW d store0 U = updW d store0 V := by
  funext s
  unfold updW
  by_cases hc : s.user_id ∈ U ∧ isSelected store0 s = true
  · rw [if_pos hc, if_pos ⟨(h _).1 hc.1, hc.2⟩]
  · rw [if_neg hc, if_neg fun hc2 => hc ⟨(h _).2 hc2.1, hc2.2⟩]

theorem processUser_updW {d : Nat} {store0 : Store}
    (hnodup : (store0.map fun r => r.id).Nodup) (U : List Nat) (uid : Nat) :
    processUser d (store0.map (updW d store0 U)) uid =
      store0.map (updW d store0 (uid :: U)) := by
  have hf := updW_shape d store0 U
  unfold processUser
  rw [find_recent_map hf]
  cases hfr : find_recent_verification store0 uid with
  | none =>
      simp only [Option.map_none']
      apply List.map_congr_left
      intro s _
      unfold updW
      by_cases hu : s.user_id = uid
      · have hsel : isSelected store0 s = false := by
          unfold isSelected
          rw [hu, hfr]
        simp [hsel]
      · simp [List.mem_cons, hu]
  | some r =>
      simp only [Option.map_some']
      obtain ⟨hrmem, hrap, hruid, _⟩ := find_recent_some hfr
      have hselr : isSelected store0 r = true := isSelected_of_find hfr
      rw [applyExpiry_of_shape hf]
      unfold save
      rw [List.map_map]
      apply List.map_congr_left
      intro s hsmem
      simp only [Function.comp_apply]
      have hid : (updW d store0 U s).id = s.id := (updW_shape d store0 U s).1
      have hid2 : (applyExpiry d r).id = r.id := (applyExpiry_shape d r).1
      rw [hid, hid2]
      by_cases hcase : s.id = r.id
      · have hsr : s = r := nodup_id_inj hnodup hsmem hrmem hcase
        subst hsr
        rw [if_pos hcase]
        simp [updW, List.mem_cons, hruid, hselr]
      · rw [if_neg hcase]
        by_cases hu : s.user_id = uid
        · have hsel : isSelected store0 s = false := by
            unfold isSelected
            rw [hu, hfr]
            simp only [beq_eq_false_iff_ne, ne_eq]
            exact fun h => hcase h.symm
          simp [updW, hsel]
        · simp [updW, List.mem_cons, hu]

theorem processUsers_updW {d : Nat} {store0 : Store}
    (hnodup : (store0.map fun r => r.id).Nodup) :
    ∀ (uids U : List Nat),
      processUsers d (store0.map (updW d store0 U)) uids =
        store0.map (updW d store0 (uids ++ U)) := by
  intro uids
  induction uids with
  | nil => intro U; rfl
  | cons uid rest ih =>
      intro U
      show processUsers d
          (processUser d (store0.map (updW d store0 U)) uid) rest = _
      rw [processUser_updW hnodup U uid, ih (uid :: U)]
      congr 1
      apply updW_congr
      intro x
      simp only [List.mem_append, List.mem_cons]
      tauto

theorem handleLoop_invariant {d b maxId : Nat} {store0 : Store}
    (hnodup : (store0.map fun r => r.id).Nodup) (hb : 0 < b)
    (hmax : ∀ uid, hasApprovedUser store0 uid = true → uid ≤ maxId) :
    ∀ n batchStart U, n = maxId + 1 - batchStart →
      (∀ uid, uid ∈ U ↔ (hasApprovedUser store0 uid = true ∧ uid < batchStart)) →
      (handleLoop d b maxId batchStart (store0.map (updW d store0 U))).1 =
          store0.map (runUpdate d store0) ∧
      ∀ uid,
        ((handleLoop d b maxId batchStart (store0.map (updW d store0 U))).2).count uid
          = if hasApprovedUser store0 uid = true ∧ batchStart ≤ uid then 1 else 0 := by
  intro n
  induction n using Nat.strong_induction_on with
  | _ n ih =>
    intro batchStart U hn hU
    by_cases hgo : batchStart ≤ maxId
    · rw [handleLoop_step hgo hb]
      rw [windowUsers_map (updW_shape d store0 U)]
      rw [processUsers_updW hnodup]
      set us := windowUsers store0 batchStart (batchStart + b) with hus
      have hU2 : ∀ uid, uid ∈ us ++ U ↔
          (hasApprovedUser store0 uid = true ∧ uid < batchStart + b) := by
        intro uid
        rw [List.mem_append, hus, mem_windowUsers, hU uid]
        constructor
        · rintro (h | h)
          · exact ⟨h.1, by omega⟩
          · exact ⟨h.1, by omega⟩
        · rintro ⟨happ, hlt⟩
          by_cases hc : uid < batchStart
          · exact Or.inr ⟨happ, hc⟩
          · exact Or.inl ⟨happ, by omega, hlt⟩
      have hrec := ih (maxId + 1 - (batchStart + b)) (by omega) (batchStart + b)
        (us ++ U) rfl hU2
      constructor
      · exact hrec.1
      · intro uid
        show (us ++ (handleLoop d b maxId (batchStart + b)
            (store0.map (updW d store0 (us ++ U)))).2).count uid = _
        rw [List.count_append, hrec.2 uid]
        have hcount : us.count uid =
            if hasApprovedUser store0 uid = true ∧ batchStart ≤ uid ∧
                uid < batchStart + b then 1 else 0 := by
          by_cases hm : uid ∈ us
          · rw [List.count_eq_one_of_mem
              (by rw [hus]; exact nodup_windowUsers store0 batchStart (batchStart + b)) hm]
            rw [hus, mem_windowUsers] at hm
            rw [if_pos hm]
          · rw [List.count_eq_zero_of_not_mem hm]
            rw [hus, mem_windowUsers] at hm
            rw [if_neg hm]
        rw [hcount]
        by_cases happ : hasApprovedUser store0 uid = true
        · simp only [happ, true_and]
          split_ifs <;> omega
        · rw [if_neg fun hc => happ hc.1, if_neg fun hc => happ hc.1,
            if_neg fun hc => happ hc.1]
    · have hstop : maxId < batchStart := by omega
      rw [handleLoop_stop hstop]
      constructor
      · show store0.map (updW d store0 U) = store0.map (runUpdate d store0)
        apply List.map_congr_left
        intro s _
        unfold updW runUpdate
        by_cases hsel : isSelected store0 s = true
        · have happ : hasApprovedUser store0 s.user_id = true := by
            unfold isSelected at hsel
            unfold hasApprovedUser
            cases hfr : find_recent_verification store0 s.user_id with
            | none => rw [hfr] at hsel; simp at hsel
            | some r => rfl
          have hle : s.user_id ≤ maxId := hmax _ happ
          have hmem : s.user_id ∈ U := (hU _).2 ⟨happ, by omega⟩
          rw [if_pos ⟨hmem, hsel⟩, if_pos hsel]
        · rw [if_neg fun hc => hsel hc.2, if_neg hsel]
      · intro uid
        show ([] : List Nat).count uid = _
        rw [List.count_nil]
        by_cases happ : hasApprovedUser store0 uid = true
        · have hle := hmax _ happ
          rw [if_neg fun hc => absurd hc.2 (by omega)]
        · rw [if_neg fun hc => happ hc.1]

theorem handle_main {d b : Nat} {store : Store}
    (hnodup : (store.map fun r => r.id).Nodup) (hb : 0 < b) :
    handle d b store = store.map (runUpdate d store) ∧
    ∀ uid, (handleTrace d b store).count uid =
      if hasApprovedUser store uid = true then 1 else 0 := by
  have hid : store.map (updW d store []) = store := by
    have h0 : ∀ s ∈ store, updW d store [] s = s := by
      intro s _
      unfold updW
      rw [if_neg fun hc => absurd hc.1 (List.not_mem_nil _)]
    rw [List.map_congr_left h0, List.map_id']
  cases hsspv : sspv store with
  | nil =>
      have hnone : ∀ uid, find_recent_verification store uid = none := by
        intro uid
        unfold find_recent_verification
        rw [hsspv]
        rfl
      have happF : ∀ uid, hasApprovedUser store uid = false := by
        intro uid
        unfold hasApprovedUser
        rw [hnone]
        rfl
      have hmapid : store.map (runUpdate d store) = store := by
        have h2 : ∀ s ∈ store, runUpdate d store s = s := by
          intro s _
          unfold runUpdate
          rw [if_neg]
          unfold isSelected
          rw [hnone]
          simp
        rw [List.map_congr_left h2, List.map_id']
      constructor
      · unfold handle
        rw [hsspv]
        exact hmapid.symm
      · intro uid
        unfold handleTrace
        rw [hsspv]
        rw [if_neg (by rw [happF uid]; simp)]
        rfl
  | cons top rest =>
      have hhead : (sspv store).head? = some top := by rw [hsspv]; rfl
      obtain ⟨mn, hmn⟩ : ∃ mn, (sspv store).reverse.head? = some mn := by
        rw [hsspv]
        cases hr : (top :: rest).reverse with
        | nil => exact absurd hr (by simp)
        | cons a t => exact ⟨a, rfl⟩
      have hmax : ∀ uid, hasApprovedUser store uid = true → uid ≤ top.user_id := by
        intro uid happ
        obtain ⟨s, hs, hap, huid⟩ := hasApprovedUser_iff.1 happ
        have hmem : s ∈ sspv store := mem_sspv.2 ⟨hs, hap⟩
        have := sspv_head_max hhead s hmem
        omega
      have hmin : ∀ uid, hasApprovedUser store uid = true → mn.user_id ≤ uid := by
        intro uid happ
        obtain ⟨s, hs, hap, huid⟩ := hasApprovedUser_iff.1 happ
        have hmem : s ∈ sspv store := mem_sspv.2 ⟨hs, hap⟩
        have := sspv_revhead_min hmn s hmem
        omega
      have hU : ∀ uid, uid ∈ ([] : List Nat) ↔
          (hasApprovedUser store uid = true ∧ uid < mn.user_id) := by
        intro uid
        constructor
        · intro h
          exact absurd h (List.not_mem_nil _)
        · rintro ⟨happ, hlt⟩
          have := hmin uid happ
          omega
      have hinv := handleLoop_invariant (d := d) hnodup hb hmax
        (top.user_id + 1 - mn.user_id) mn.user_id [] rfl hU
      constructor
      · unfold handle
        rw [hhead, hmn]
        show (handleLoop d b top.user_id mn.user_id store).1 =
          store.map (runUpdate d store)
        calc (handleLoop d b top.user_id mn.user_id store).1
            = (handleLoop d b top.user_id mn.user_id
                (store.map (updW d store []))).1 := by rw [hid]
          _ = store.map (runUpdate d store) := hinv.1
      · intro uid
        unfold handleTrace
        rw [hhead, hmn]
        show ((handleLoop d b top.user_id mn.user_id store).2).count uid = _
        have htr : ((handleLoop d b top.user_id mn.user_id
            (store.map (updW d store []))).2).count uid =
            if hasApprovedUser store uid = true ∧ mn.user_id ≤ uid then 1 else 0 :=
          hinv.2 uid
        rw [hid] at htr
        rw [htr]
        by_cases happ : hasApprovedUser store uid = true
        · rw [if_pos ⟨happ, hmin uid happ⟩, if_pos happ]
        · rw [if_neg fun hc => happ hc.1, if_neg happ]

/-! ### The raising-save model agrees with the plain model and propagates
the first exception, keeping earlier saves -/

theorem processUsers_append (d : Nat) (store : Store) (l1 l2 : List Nat) :
    processUsers d store (l1 ++ l2) = processUsers d (processUsers d store l1) l2 :=
  List.foldl_append _ _ _ _

theorem processUserE_nil (d : Nat) (store : Store) (uid : Nat) :
    processUserE d [] store uid = Except.ok (processUser d store uid) := by
  unfold processUserE processUser
  cases find_recent_verification store uid with
  | none => rfl
  | some r => simp

theorem processUsersE_nil (d : Nat) : ∀ (uids : List Nat) (store : Store),
    processUsersE d [] store uids = Except.ok (processUsers d store uids) := by
  intro uids
  induction uids with
  | nil => intro store; rfl
  | cons uid rest ih =>
      intro store
      unfold processUsersE
      rw [processUserE_nil]
      exact ih _

theorem processUserE_ok {d : Nat} {failIds : List Nat} {store st : Store} {uid : Nat}
    (h : processUserE d failIds store uid = Except.ok st) :
    st = processUser d store uid := by
  unfold processUserE at h
  unfold processUser
  split at h
  · rename_i r heq
    split at h
    · exact absurd h (by simp)
    · simp only [Except.ok.injEq] at h
      exact h.symm
  · simp only [Except.ok.injEq] at h
    exact h.symm

theorem processUserE_error {d : Nat} {failIds : List Nat} {store st : Store} {uid : Nat}
    (h : processUserE d failIds store uid = Except.error st) :
    st = store := by
  unfold processUserE at h
  split at h
  · rename_i r heq
    split at h
    · simp only [Except.error.injEq] at h
      exact h.symm
    · exact absurd h (by simp)
  · exact absurd h (by simp)

theorem processUsersE_ok {d : Nat} {failIds : List Nat} :
    ∀ {uids : List Nat} {store st : Store},
      processUsersE d failIds store uids = Except.ok st →
      st = processUsers d store uids := by
  intro uids
  induction uids with
  | nil =>
      intro store st h
      unfold processUsersE at h
      simp only [Except.ok.injEq] at h
      exact h.symm
  | cons uid rest ih =>
      intro store st h
      unfold processUsersE at h
      split at h
      · exact absurd h (by simp)
      · rename_i st1 hp
        rw [ih h, processUserE_ok hp]
        rfl

theorem processUsersE_error {d : Nat} {failIds : List Nat} :
    ∀ {uids : List Nat} {store st : Store},
      processUsersE d failIds store uids = Except.error st →
      ∃ l, st = processUsers d store l := by
  intro uids
  induction uids with
  | nil =>
      intro store st h
      unfold processUsersE at h
      exact absurd h (by simp)
  | cons uid rest ih =>
      intro store st h
      unfold processUsersE at h
      split at h
      · rename_i e hp
        simp only [Except.error.injEq] at h
        subst h
        exact ⟨[], (processUserE_error hp).symm ▸ rfl⟩
      · rename_i st1 hp
        obtain ⟨l, hl⟩ := ih h
        refine ⟨uid :: l, ?_⟩
        rw [hl, processUserE_ok hp]
        rfl

theorem handleLoopE_stop2 {d b maxId batchStart : Nat} {failIds : List Nat}
    {store : Store} (h : ¬(batchStart ≤ maxId ∧ 0 < b)) :
    handleLoopE d b maxId batchStart failIds store = Except.ok store := by
  unfold handleLoopE
  rw [dif_neg h]

theorem handleLoopE_nil {d b maxId : Nat} (hb : 0 < b) :
    ∀ n batchStart (store : Store), n = maxId + 1 - batchStart →
      handleLoopE d b maxId batchStart [] store =
        Except.ok ((handleLoop d b maxId batchStart store).1) := by
  intro n
  induction n using Nat.strong_induction_on with
  | _ n ih =>
    intro batchStart store hn
    by_cases hgo : batchStart ≤ maxId
    · rw [handleLoopE_step hgo hb, handleLoop_step hgo hb]
      rw [processUsersE_nil]
      show handleLoopE d b maxId (batchStart + b) []
          (processUsers d store (windowUsers store batchStart (batchStart + b))) = _
      rw [ih (maxId + 1 - (batchStart + b)) (by omega) _ _ rfl]
    · rw [handleLoopE_stop (by omega), handleLoop_stop (by omega)]

theorem handleE_nil {d b : Nat} {store : Store} (hb : 0 < b) :
    handleE d b [] store = Except.ok (handle d b store) := by
  cases hsspv : sspv store with
  | nil =>
      have h1 : handleE d b [] store = Except.ok store := by
        unfold handleE
        rw [hsspv]
        rfl
      have h2 : handle d b store = store := by
        unfold handle
        rw [hsspv]
        rfl
      rw [h1, h2]
  | cons top rest =>
      have hhead : (sspv store).head? = some top := by rw [hsspv]; rfl
      obtain ⟨mn, hmn⟩ : ∃ mn, (sspv store).reverse.head? = some mn := by
        rw [hsspv]
        cases hr : (top :: rest).reverse with
        | nil => exact absurd hr (by simp)
        | cons a t => exact ⟨a, rfl⟩
      have h1 : handleE d b [] store =
          handleLoopE d b top.user_id mn.user_id [] store := by
        unfold handleE
        rw [hhead, hmn]
      have h2 : handle d b store =
          (handleLoop d b top.user_id mn.user_id store).1 := by
        unfold handle
        rw [hhead, hmn]
      rw [h1, h2]
      exact handleLoopE_nil hb _ mn.user_id store rfl

theorem handleLoopE_error {d b maxId : Nat} {failIds : List Nat} :
    ∀ n batchStart (store st : Store), n = maxId + 1 - batchStart →
      handleLoopE d b maxId batchStart failIds store = Except.error st →
      ∃ l, st = processUsers d store l := by
  intro n
  induction n using Nat.strong_induction_on with
  | _ n ih =>
    intro batchStart store st hn herr
    by_cases hgo : batchStart ≤ maxId ∧ 0 < b
    · rw [handleLoopE_step hgo.1 hgo.2] at herr
      split at herr
      · rename_i e hp
        simp only [Except.error.injEq] at herr
        subst herr
        exact processUsersE_error hp
      · rename_i st1 hp
        obtain ⟨l, hl⟩ := ih (maxId + 1 - (batchStart + b)) (by omega) _ _ _ rfl herr
        refine ⟨windowUsers store batchStart (batchStart + b) ++ l, ?_⟩
        rw [processUsers_append, ← processUsersE_ok hp, hl]
    · rw [handleLoopE_stop2 hgo] at herr
      exact absurd herr (by simp)

theorem handleE_error {d b : Nat} {failIds : List Nat} {store st : Store}
    (h : handleE d b failIds store = Except.error st) :
    ∃ l, st = processUsers d store l := by
  cases hsspv : sspv store with
  | nil =>
      have h2 : Except.ok store = Except.error st := by
        rw [← h]
        unfold handleE
        rw [hsspv]
        rfl
      exact absurd h2 (by simp)
  | cons top rest =>
      have hhead : (sspv store).head? = some top := by rw [hsspv]; rfl
      obtain ⟨mn, hmn⟩ : ∃ mn, (sspv store).reverse.head? = some mn := by
        rw [hsspv]
        cases hr : (top :: rest).reverse with
        | nil => exact absurd hr (by simp)
        | cons a t => exact ⟨a, rfl⟩
      have h2 : handleLoopE d b top.user_id mn.user_id failIds store =
          Except.error st := by
        rw [← h]
        unfold handleE
        rw [hhead, hmn]
      exact handleLoopE_error _ mn.user_id store st rfl h2

/-! ### Bridging helpers for the claims -/

theorem runUpdate_eq_pos {d : Nat} {store : Store} {s : Record}
    (h : isSelected store s = true) :
    runUpdate d store s = applyExpiry d s := by
  unfold runUpdate
  rw [if_pos h]

theorem runUpdate_eq_neg {d : Nat} {store : Store} {s : Record}
    (h : ¬isSelected store s = true) :
    runUpdate d store s = s := by
  unfold runUpdate
  rw [if_neg h]

theorem isSelected_facts {store : Store} {s : Record}
    (hnodup : (store.map fun r => r.id).Nodup) (hmem : s ∈ store)
    (hsel : isSelected store s = true) :
    approvedRec s = true ∧ ∀ t ∈ store, approvedRec t = true →
      t.user_id = s.user_id → t.updated_at ≤ s.updated_at := by
  unfold isSelected at hsel
  cases hfr : find_recent_verification store s.user_id with
  | none => rw [hfr] at hsel; simp at hsel
  | some r =>
      rw [hfr] at hsel
      simp only [beq_iff_eq] at hsel
      obtain ⟨hrmem, hrap, hruid, hrmax⟩ := find_recent_some hfr
      have hrs : r = s := nodup_id_inj hnodup hrmem hmem hsel
      subst hrs
      exact ⟨hrap, hrmax⟩

theorem find_recent_eq_of_max {store : Store}
    (hdist : ∀ s ∈ store, ∀ t ∈ store, approvedRec s = true → approvedRec t = true →
      s.user_id = t.user_id → s.updated_at = t.updated_at → s = t)
    {r : Record} (hr : r ∈ store) (hap : approvedRec r = true)
    (hmaxr : ∀ t ∈ store, approvedRec t = true → t.user_id = r.user_id →
      t.updated_at ≤ r.updated_at) :
    find_recent_verification store r.user_id = some r := by
  cases hfr : find_recent_verification store r.user_id with
  | none =>
      exfalso
      have happ : hasApprovedUser store r.user_id = true :=
        hasApprovedUser_iff.2 ⟨r, hr, hap, rfl⟩
      unfold hasApprovedUser at happ
      rw [hfr] at happ
      simp at happ
  | some m =>
      obtain ⟨hm, hmap, hmuid, hmax⟩ := find_recent_some hfr
      have h1 : m.updated_at ≤ r.updated_at := hmaxr m hm hmap hmuid
      have h2 : r.updated_at ≤ m.updated_at := hmax r hr hap rfl
      have hmr : m = r := hdist m hm r hr hmap hap hmuid (by omega)
      rw [hmr]

/-! ### Exact error characterization of the raising-save run -/

theorem failsAt_map {f : Record → Record} (hf : PreservesShape f)
    (d : Nat) (failIds : List Nat) (store : Store) (uid : Nat) :
    failsAt d failIds (store.map f) uid = failsAt d failIds store uid := by
  unfold failsAt
  rw [find_recent_map hf]
  cases find_recent_verification store uid with
  | none => rfl
  | some r =>
      show decide ((applyExpiry d (f r)).id ∈ failIds) =
        decide ((applyExpiry d r).id ∈ failIds)
      have hid : (applyExpiry d (f r)).id = (applyExpiry d r).id := by
        rw [(applyExpiry_shape d (f r)).1, (applyExpiry_shape d r).1, (hf r).1]
      rw [hid]

theorem processUserE_spec (d : Nat) (failIds : List Nat) (st : Store) (uid : Nat) :
    processUserE d failIds st uid =
      if failsAt d failIds st uid = true then Except.error st
      else Except.ok (processUser d st uid) := by
  unfold processUserE processUser failsAt
  cases hfr : find_recent_verification st uid with
  | none => simp
  | some r =>
      by_cases hmem : (applyExpiry d r).id ∈ failIds
      · simp [hmem]
      · simp [hmem]

theorem processUserE_updW_ok {d : Nat} {failIds : List Nat} {store0 : Store}
    (hnodup : (store0.map fun r => r.id).Nodup) (U : List Nat) (uid : Nat)
    (h0 : failsAt d failIds store0 uid = false) :
    processUserE d failIds (store0.map (updW d store0 U)) uid =
      Except.ok (store0.map (updW d store0 (uid :: U))) := by
  rw [processUserE_spec, failsAt_map (updW_shape d store0 U), h0,
    if_neg Bool.false_ne_true, processUser_updW hnodup]

theorem processUserE_updW_err {d : Nat} {failIds : List Nat} {store0 : Store}
    (U : List Nat) (uid : Nat)
    (h1 : failsAt d failIds store0 uid = true) :
    processUserE d failIds (store0.map (updW d store0 U)) uid =
      Except.error (store0.map (updW d store0 U)) := by
  rw [processUserE_spec, failsAt_map (updW_shape d store0 U), h1, if_pos rfl]

theorem takeWhile_append_stop {α : Type} (p : α → Bool) :
    ∀ (l1 l2 : List α), (∃ x ∈ l1, p x = false) →
      (l1 ++ l2).takeWhile p = l1.takeWhile p := by
  intro l1
  induction l1 with
  | nil =>
      intro l2 h
      obtain ⟨x, hx, _⟩ := h
      simp at hx
  | cons a t ih =>
      intro l2 h
      by_cases hpa : p a = true
      · rw [List.cons_append, List.takeWhile_cons p a (t ++ l2),
          List.takeWhile_cons p a t, if_pos hpa, if_pos hpa]
        congr 1
        apply ih
        obtain ⟨x, hx, hpx⟩ := h
        rcases List.mem_cons.1 hx with rfl | hxt
        · rw [hpa] at hpx; cases hpx
        · exact ⟨x, hxt, hpx⟩
      · rw [List.cons_append, List.takeWhile_cons p a (t ++ l2),
          List.takeWhile_cons p a t, if_neg hpa, if_neg hpa]

theorem takeWhile_append_go {α : Type} (p : α → Bool) :
    ∀ (l1 l2 : List α), (∀ x ∈ l1, p x = true) →
      (l1 ++ l2).takeWhile p = l1 ++ l2.takeWhile p := by
  intro l1
  induction l1 with
  | nil => intro l2 _; rfl
  | cons a t ih =>
      intro l2 h
      rw [List.cons_append, List.takeWhile_cons p a (t ++ l2),
        if_pos (h a (List.mem_cons_self _ _))]
      rw [List.cons_append]
      congr 1
      exact ih l2 fun x hx => h x (List.mem_cons_of_mem _ hx)

theorem processUsersE_updW {d : Nat} {failIds : List Nat} {store0 : Store}
    (hnodup : (store0.map fun r => r.id).Nodup) :
    ∀ (uids U : List Nat),
      ((∀ uid ∈ uids, failsAt d failIds store0 uid = false) →
        processUsersE d failIds (store0.map (updW d store0 U)) uids =
          Except.ok (store0.map (updW d store0 (uids ++ U)))) ∧
      ((∃ uid ∈ uids, failsAt d failIds store0 uid = true) →
        processUsersE d failIds (store0.map (updW d store0 U)) uids =
          Except.error (store0.map (updW d store0
            ((uids.takeWhile fun u => !failsAt d failIds store0 u) ++ U)))) := by
  intro uids
  induction uids with
  | nil =>
      intro U
      constructor
      · intro _
        rfl
      · rintro ⟨uid, hu, _⟩
        simp at hu
  | cons uid rest ih =>
      intro U
      constructor
      · intro hall
        have h0 : failsAt d failIds store0 uid = false :=
          hall uid (List.mem_cons_self _ _)
        show (match processUserE d failIds (store0.map (updW d store0 U)) uid with
          | Except.error st => Except.error st
          | Except.ok st => processUsersE d failIds st rest) = _
        rw [processUserE_updW_ok hnodup U uid h0]
        show processUsersE d failIds (store0.map (updW d store0 (uid :: U))) rest = _
        rw [(ih (uid :: U)).1 fun u hu => hall u (List.mem_cons_of_mem _ hu)]
        rw [updW_congr (show ∀ x, x ∈ rest ++ uid :: U ↔ x ∈ (uid :: rest) ++ U from by
          intro x
          simp only [List.mem_append, List.mem_cons]
          tauto)]
      · intro hex
        by_cases h0 : failsAt d failIds store0 uid = true
        · show (match processUserE d failIds (store0.map (updW d store0 U)) uid with
            | Except.error st => Except.error st
            | Except.ok st => processUsersE d failIds st rest) = _
          rw [processUserE_updW_err U uid h0]
          have htw : ((uid :: rest).takeWhile fun u => !failsAt d failIds store0 u)
              = [] := by
            rw [List.takeWhile_cons, if_neg (by rw [h0]; simp)]
          rw [htw]
          rfl
        · have h0f : failsAt d failIds store0 uid = false := Bool.eq_false_iff.2 h0
          obtain ⟨u, hu, hfu⟩ := hex
          have hurest : u ∈ rest := by
            rcases List.mem_cons.1 hu with rfl | h
            · rw [h0f] at hfu; cases hfu
            · exact h
          show (match processUserE d failIds (store0.map (updW d store0 U)) uid with
            | Except.error st => Except.error st
            | Except.ok st => processUsersE d failIds st rest) = _
          rw [processUserE_updW_ok hnodup U uid h0f]
          show processUsersE d failIds (store0.map (updW d store0 (uid :: U))) rest = _
          rw [(ih (uid :: U)).2 ⟨u, hurest, hfu⟩]
          have htw : ((uid :: rest).takeWhile fun u => !failsAt d failIds store0 u)
              = uid :: (rest.takeWhile fun u => !failsAt d failIds store0 u) := by
            rw [List.takeWhile_cons, if_pos (by rw [h0f]; simp)]
          rw [htw]
          rw [updW_congr (show ∀ x,
              x ∈ (rest.takeWhile fun u => !failsAt d failIds store0 u) ++ uid :: U ↔
              x ∈ (uid :: rest.takeWhile fun u => !failsAt d failIds store0 u) ++ U from by
            intro x
            simp only [List.mem_append, List.mem_cons]
            tauto)]

theorem handleLoopE_updW {d b maxId : Nat} {failIds : List Nat} {store0 : Store}
    (hnodup : (store0.map fun r => r.id).Nodup) (hb : 0 < b)
    (hmax : ∀ uid, hasApprovedUser store0 uid = true → uid ≤ maxId) :
    ∀ n batchStart U, n = maxId + 1 - batchStart →
      (∀ uid, uid ∈ U ↔ (hasApprovedUser store0 uid = true ∧ uid < batchStart)) →
      ((∀ uid ∈ (handleLoop d b maxId batchStart (store0.map (updW d store0 U))).2,
          failsAt d failIds store0 uid = false) →
        handleLoopE d b maxId batchStart failIds (store0.map (updW d store0 U)) =
          Except.ok
            ((handleLoop d b maxId batchStart (store0.map (updW d store0 U))).1)) ∧
      ((∃ uid ∈ (handleLoop d b maxId batchStart (store0.map (updW d store0 U))).2,
          failsAt d failIds store0 uid = true) →
        handleLoopE d b maxId batchStart failIds (store0.map (updW d store0 U)) =
          Except.error (store0.map (updW d store0
            (((handleLoop d b maxId batchStart
                (store0.map (updW d store0 U))).2.takeWhile
                  fun u => !failsAt d failIds store0 u) ++ U)))) := by
  intro n
  induction n using Nat.strong_induction_on with
  | _ n ih =>
    intro batchStart U hn hU
    by_cases hgo : batchStart ≤ maxId
    · rw [handleLoop_step hgo hb, handleLoopE_step hgo hb]
      rw [windowUsers_map (updW_shape d store0 U)]
      rw [processUsers_updW hnodup]
      set us := windowUsers store0 batchStart (batchStart + b) with hus
      have hU2 : ∀ uid, uid ∈ us ++ U ↔
          (hasApprovedUser store0 uid = true ∧ uid < batchStart + b) := by
        intro uid
        rw [List.mem_append, hus, mem_windowUsers, hU uid]
        constructor
        · rintro (h | h)
          · exact ⟨h.1, by omega⟩
          · exact ⟨h.1, by omega⟩
        · rintro ⟨happ, hlt⟩
          by_cases hc : uid < batchStart
          · exact Or.inr ⟨happ, hc⟩
          · exact Or.inl ⟨happ, by omega, hlt⟩
      have hrec := ih (maxId + 1 - (batchStart + b)) (by omega) (batchStart + b)
        (us ++ U) rfl hU2
      set tr2 := (handleLoop d b maxId (batchStart + b)
        (store0.map (updW d store0 (us ++ U)))).2 with htr2
      constructor
      · intro hall
        have hall2 : ∀ x ∈ us ++ tr2, failsAt d failIds store0 x = false :=
          fun x hx => hall x hx
        have hallus : ∀ x ∈ us, failsAt d failIds store0 x = false :=
          fun x hx => hall2 x (List.mem_append.2 (Or.inl hx))
        have halltr2 : ∀ x ∈ tr2, failsAt d failIds store0 x = false :=
          fun x hx => hall2 x (List.mem_append.2 (Or.inr hx))
        rw [(processUsersE_updW hnodup us U).1 hallus]
        show handleLoopE d b maxId (batchStart + b) failIds
            (store0.map (updW d store0 (us ++ U))) = _
        rw [hrec.1 halltr2]
      · intro hex
        have hex2 : ∃ x ∈ us ++ tr2, failsAt d failIds store0 x = true :=
          hex
        by_cases hfus : ∃ x ∈ us, failsAt d failIds store0 x = true
        · rw [(processUsersE_updW hnodup us U).2 hfus]
          show Except.error (store0.map (updW d store0
              ((us.takeWhile fun u => !failsAt d failIds store0 u) ++ U))) =
            Except.error (store0.map (updW d store0
              (((us ++ tr2).takeWhile fun u => !failsAt d failIds store0 u) ++ U)))
          have hstop2 : ((us ++ tr2).takeWhile fun u => !failsAt d failIds store0 u) =
              us.takeWhile fun u => !failsAt d failIds store0 u := by
            apply takeWhile_append_stop
            obtain ⟨x, hx, hfx⟩ := hfus
            exact ⟨x, hx, by rw [hfx]; rfl⟩
          rw [hstop2]
        · have hallus : ∀ x ∈ us, failsAt d failIds store0 x = false := by
            intro x hx
            by_cases hfx : failsAt d failIds store0 x = true
            · exact absurd ⟨x, hx, hfx⟩ hfus
            · exact Bool.eq_false_iff.2 hfx
          have hextr2 : ∃ x ∈ tr2, failsAt d failIds store0 x = true := by
            obtain ⟨x, hx, hfx⟩ := hex2
            rcases List.mem_append.1 hx with h1 | h2
            · rw [hallus x h1] at hfx; cases hfx
            · exact ⟨x, h2, hfx⟩
          rw [(processUsersE_updW hnodup us U).1 hallus]
          show handleLoopE d b maxId (batchStart + b) failIds
              (store0.map (updW d store0 (us ++ U))) = _
          rw [hrec.2 hextr2]
          show Except.error (store0.map (updW d store0
              ((tr2.takeWhile fun u => !failsAt d failIds store0 u) ++ (us ++ U)))) =
            Except.error (store0.map (updW d store0
              (((us ++ tr2).takeWhile fun u => !failsAt d failIds store0 u) ++ U)))
          have hgo2 : ((us ++ tr2).takeWhile fun u => !failsAt d failIds store0 u) =
              us ++ tr2.takeWhile fun u => !failsAt d failIds store0 u := by
            apply takeWhile_append_go
            intro x hx
            rw [hallus x hx]
            rfl
          rw [hgo2]
          rw [updW_congr (show ∀ x,
              x ∈ (tr2.takeWhile fun u => !failsAt d failIds store0 u) ++ (us ++ U) ↔
              x ∈ (us ++ tr2.takeWhile fun u => !failsAt d failIds store0 u) ++ U from by
            intro x
            simp only [List.mem_append]
            tauto)]
    · have hstop : maxId < batchStart := by omega
      rw [handleLoop_stop hstop, handleLoopE_stop2 (by omega)]
      constructor
      · intro _
        rfl
      · rintro ⟨uid, hu, _⟩
        simp at hu

/-! ### The claims -/

/-- Claim C1: after a complete run of the command's handle, for every user
who has at least one approved verification record, the approved record of
that user with the maximum updated_at timestamp has expiry_date equal to
that record's updated_at plus the configured number of validity days.
(The per-user maximum is unique under the `hdist` hypothesis, which makes
"the approved record with the maximum updated_at" well defined; primary
keys are assumed unique as the database guarantees.) -/
theorem claim_C1 (d b : Nat) (store : Store)
    (hnodup : (store.map fun r => r.id).Nodup) (hb : 0 < b)
    (hdist : ∀ s ∈ store, ∀ t ∈ store, approvedRec s = true → approvedRec t = true →
      s.user_id = t.user_id → s.updated_at = t.updated_at → s = t)
    (r : Record) (hr : r ∈ store) (hap : approvedRec r = true)
    (hmaxr : ∀ t ∈ store, approvedRec t = true → t.user_id = r.user_id →
      t.updated_at ≤ r.updated_at) :
    { r with expiry_date := some (r.updated_at + d) } ∈ handle d b store := by
  rw [(handle_main hnodup hb).1]
  have hfr := find_recent_eq_of_max hdist hr hap hmaxr
  have hsel : isSelected store r = true := isSelected_of_find hfr
  have hru : runUpdate d store r =
      { r with expiry_date := some (r.updated_at + d) } :=
    runUpdate_eq_pos hsel
  rw [← hru]
  exact List.mem_map_of_mem _ hr

/-- Claim C2: running the command twice in succession on the same store
yields the same final store state as running it once; every field of every
record after the second run equals its value after the first run. -/
theorem claim_C2 (d b : Nat) (store : Store)
    (hnodup : (store.map fun r => r.id).Nodup) (hb : 0 < b) :
    handle d b (handle d b store) = handle d b store := by
  have h1 := (handle_main (d := d) hnodup hb).1
  have hshape := runUpdate_shape d store
  have hnodup2 : ((handle d b store).map fun r => r.id).Nodup := by
    rw [h1, List.map_map]
    have hcmp : ((fun r => r.id) ∘ runUpdate d store) = fun r => r.id :=
      funext fun s => (hshape s).1
    rw [hcmp]
    exact hnodup
  have h2 := (handle_main (d := d) hnodup2 hb).1
  rw [h2, h1, List.map_map]
  apply List.map_congr_left
  intro s _
  simp only [Function.comp_apply]
  have hsel2 := isSelected_map hshape store s
  by_cases hsel : isSelected store s = true
  · rw [runUpdate_eq_pos (hsel2.trans hsel), runUpdate_eq_pos hsel]
    exact applyExpiry_idem d s
  · rw [runUpdate_eq_neg fun hc => hsel (hsel2.symm.trans hc)]

/-- Claim C3: the final expiry assignments are independent of the batch
size: for every positive batch size b, running the command with batch size
b produces the same final store as running it with batch size 1. -/
theorem claim_C3 (d b : Nat) (store : Store)
    (hnodup : (store.map fun r => r.id).Nodup) (hb : 0 < b) :
    handle d b store = handle d 1 store := by
  rw [(handle_main hnodup hb).1, (handle_main hnodup Nat.one_pos).1]

/-- Claim C4: if the store contains zero approved verification records,
handle terminates immediately without raising (the empty queryset is the
one anticipated condition, handled by the early return) and leaves every
record unchanged; the raising-save model also returns normally, whatever
saves would fail, since no save is attempted. -/
theorem claim_C4 (d b : Nat) (failIds : List Nat) (store : Store)
    (hempty : ∀ r ∈ store, approvedRec r = false) :
    handle d b store = store ∧ handleTrace d b store = [] ∧
      handleE d b failIds store = Except.ok store := by
  have hsspv : sspv store = [] := by
    unfold sspv
    have hf : store.filter approvedRec = [] :=
      List.filter_eq_nil_iff.2 fun a ha => by simp [hempty a ha]
    rw [hf]
    rfl
  refine ⟨?_, ?_, ?_⟩
  · unfold handle
    rw [hsspv]
    rfl
  · unfold handleTrace
    rw [hsspv]
    rfl
  · unfold handleE
    rw [hsspv]
    rfl

/-- Claim C5: for every positive batch size and finite store the loop
terminates: each iteration advances batch_start by exactly batch_size (the
step equation below), and the loop exits as soon as batch_start exceeds
the maximum approved user id (the stop equation).  Totality of handleLoop
itself is the termination argument: its measure maxId + 1 - batchStart
strictly decreases at each step. -/
theorem claim_C5 (d b maxId : Nat) (hb : 0 < b) :
    (∀ (batchStart : Nat) (store : Store), maxId < batchStart →
        handleLoop d b maxId batchStart store = (store, [])) ∧
    (∀ (batchStart : Nat) (store : Store), batchStart ≤ maxId →
        handleLoop d b maxId batchStart store =
          ((handleLoop d b maxId (batchStart + b)
              (processUsers d store (windowUsers store batchStart (batchStart + b)))).1,
            windowUsers store batchStart (batchStart + b) ++
              (handleLoop d b maxId (batchStart + b)
                (processUsers d store
                  (windowUsers store batchStart (batchStart + b)))).2)) :=
  ⟨fun _ _ h => handleLoop_stop h, fun _ _ h1 => handleLoop_step h1 hb⟩

/-- Claim C6: when at least one approved record exists, handle reads the
maximum approved user id from index 0 of the descending-ordered queryset
and the minimum from index 0 of the reversed queryset, and the first
processing window is the interval from the minimum id (inclusive) to
minimum id + batch_size (exclusive). -/
theorem claim_C6 (d b : Nat) (store : Store) (hb : 0 < b)
    (hex : ∃ r ∈ store, approvedRec r = true) :
    ∃ mx mn : Record,
      (sspv store).head? = some mx ∧
      (sspv store).reverse.head? = some mn ∧
      (∃ r ∈ store, approvedRec r = true ∧ r.user_id = mx.user_id) ∧
      (∀ r ∈ store, approvedRec r = true → r.user_id ≤ mx.user_id) ∧
      (∃ r ∈ store, approvedRec r = true ∧ r.user_id = mn.user_id) ∧
      (∀ r ∈ store, approvedRec r = true → mn.user_id ≤ r.user_id) ∧
      handle d b store = (handleLoop d b mx.user_id mn.user_id store).1 ∧
      handleLoop d b mx.user_id mn.user_id store =
        ((handleLoop d b mx.user_id (mn.user_id + b)
            (processUsers d store (windowUsers store mn.user_id (mn.user_id + b)))).1,
          windowUsers store mn.user_id (mn.user_id + b) ++
            (handleLoop d b mx.user_id (mn.user_id + b)
              (processUsers d store
                (windowUsers store mn.user_id (mn.user_id + b)))).2) := by
  obtain ⟨r0, hr0, hap0⟩ := hex
  have hne : sspv store ≠ [] := by
    intro h
    have hmem : r0 ∈ sspv store := mem_sspv.2 ⟨hr0, hap0⟩
    rw [h] at hmem
    simp at hmem
  obtain ⟨top, hhead⟩ : ∃ mx, (sspv store).head? = some mx := by
    cases hs : sspv store with
    | nil => exact absurd hs hne
    | cons a t => exact ⟨a, rfl⟩
  obtain ⟨mn, hmn⟩ : ∃ mn, (sspv store).reverse.head? = some mn := by
    cases hs : (sspv store).reverse with
    | nil => exact absurd (List.reverse_eq_nil_iff.1 hs) hne
    | cons a t => exact ⟨a, rfl⟩
  have hmnmem : mn ∈ sspv store := by
    have h1 : mn ∈ (sspv store).reverse := by
      cases hrv : (sspv store).reverse with
      | nil => rw [hrv] at hmn; simp at hmn
      | cons a t =>
          rw [hrv] at hmn
          simp only [List.head?_cons, Option.some.injEq] at hmn
          subst hmn
          exact List.mem_cons_self _ _
    exact List.mem_reverse.1 h1
  have htopmem : top ∈ sspv store := by
    cases hs : sspv store with
    | nil => exact absurd hs hne
    | cons a t =>
        rw [hs] at hhead
        simp only [List.head?_cons, Option.some.injEq] at hhead
        subst hhead
        exact List.mem_cons_self _ _
  refine ⟨top, mn, hhead, hmn, ?_, ?_, ?_, ?_, ?_, ?_⟩
  · have htop := htopmem
    rw [mem_sspv] at htop
    exact ⟨top, htop.1, htop.2, rfl⟩
  · intro r hr hap
    exact sspv_head_max hhead r (mem_sspv.2 ⟨hr, hap⟩)
  · have hmn2 := hmnmem
    rw [mem_sspv] at hmn2
    exact ⟨mn, hmn2.1, hmn2.2, rfl⟩
  · intro r hr hap
    exact sspv_revhead_min hmn r (mem_sspv.2 ⟨hr, hap⟩)
  · unfold handle
    rw [hhead, hmn]
  · have hle : mn.user_id ≤ top.user_id := sspv_head_max hhead mn hmnmem
    exact handleLoop_step hle hb

/-- Claim C7: a run creates no records and deletes no records (the list of
primary keys is unchanged, position by position), and every record that is
not the most recently updated approved record of some user keeps all its
fields unchanged; in particular, for a user with two approved records the
older one is untouched. -/
theorem claim_C7 (d b : Nat) (store : Store)
    (hnodup : (store.map fun r => r.id).Nodup) (hb : 0 < b) :
    (handle d b store).map (fun r => r.id) = store.map (fun r => r.id) ∧
    ∀ (i : Nat) (s : Record), store[i]? = some s →
      ¬(approvedRec s = true ∧ ∀ t ∈ store, approvedRec t = true →
          t.user_id = s.user_id → t.updated_at ≤ s.updated_at) →
      (handle d b store)[i]? = some s := by
  have h1 := (handle_main (d := d) hnodup hb).1
  constructor
  · rw [h1, List.map_map]
    apply List.map_congr_left
    intro s _
    exact (runUpdate_shape d store s).1
  · intro i s hi hs
    rw [h1, List.getElem?_map, hi]
    simp only [Option.map_some']
    congr 1
    apply runUpdate_eq_neg
    intro hsel
    exact hs (isSelected_facts hnodup (List.getElem?_mem hi) hsel)

/-- Claim C8: if persisting a write-back fails (the save of some processed
user's record raises), the exception propagates uncaught out of handle —
the run's outcome is the error, never a normal return — no retry occurs,
and updates already persisted in earlier iterations are not rolled back:
the store carried by the exception is exactly the original store with the
per-user updates of the users processed strictly before the first failing
save applied (the longest failure-free prefix of the processing trace),
so every mutation made before the failing save is retained and neither
the failing save nor any later one is applied.  With no failing save the
raising-save model returns precisely the plain run's final store. -/
theorem claim_C8 (d b : Nat) (store : Store) (failIds : List Nat)
    (hnodup : (store.map fun r => r.id).Nodup) (hb : 0 < b) :
    handleE d b [] store = Except.ok (handle d b store) ∧
    ((∃ uid ∈ handleTrace d b store, failsAt d failIds store uid = true) →
      handleE d b failIds store =
        Except.error (processUsers d store
          ((handleTrace d b store).takeWhile
            fun uid => !failsAt d failIds store uid))) := by
  refine ⟨handleE_nil hb, ?_⟩
  intro hex
  have hid : store.map (updW d store []) = store := by
    have h0 : ∀ s ∈ store, updW d store [] s = s := by
      intro s _
      unfold updW
      rw [if_neg fun hc => absurd hc.1 (List.not_mem_nil _)]
    rw [List.map_congr_left h0, List.map_id']
  cases hsspv : sspv store with
  | nil =>
      exfalso
      have htr : handleTrace d b store = [] := by
        unfold handleTrace
        rw [hsspv]
        rfl
      rw [htr] at hex
      obtain ⟨uid, hu, _⟩ := hex
      simp at hu
  | cons top rest =>
      have hhead : (sspv store).head? = some top := by rw [hsspv]; rfl
      obtain ⟨mn, hmn⟩ : ∃ mn, (sspv store).reverse.head? = some mn := by
        cases hs : (sspv store).reverse with
        | nil =>
            exfalso
            rw [hsspv] at hs
            simp at hs
        | cons a t => exact ⟨a, rfl⟩
      have hmax : ∀ uid, hasApprovedUser store uid = true → uid ≤ top.user_id := by
        intro uid happ
        obtain ⟨s, hs, hap, huid⟩ := hasApprovedUser_iff.1 happ
        have hmem : s ∈ sspv store := mem_sspv.2 ⟨hs, hap⟩
        have := sspv_head_max hhead s hmem
        omega
      have hmin : ∀ uid, hasApprovedUser store uid = true → mn.user_id ≤ uid := by
        intro uid happ
        obtain ⟨s, hs, hap, huid⟩ := hasApprovedUser_iff.1 happ
        have hmem : s ∈ sspv store := mem_sspv.2 ⟨hs, hap⟩
        have := sspv_revhead_min hmn s hmem
        omega
      have hU : ∀ uid, uid ∈ ([] : List Nat) ↔
          (hasApprovedUser store uid = true ∧ uid < mn.user_id) := by
        intro uid
        constructor
        · intro h
          exact absurd h (List.not_mem_nil _)
        · rintro ⟨happ, hlt⟩
          have := hmin uid happ
          omega
      have hloop := @handleLoopE_updW d b top.user_id failIds store hnodup hb hmax
        (top.user_id + 1 - mn.user_id) mn.user_id [] rfl hU
      rw [hid] at hloop
      have hE : handleE d b failIds store =
          handleLoopE d b top.user_id mn.user_id failIds store := by
        unfold handleE
        rw [hhead, hmn]
      have hT : handleTrace d b store =
          (handleLoop d b top.user_id mn.user_id store).2 := by
        unfold handleTrace
        rw [hhead, hmn]
      rw [hT] at hex
      rw [hE, hT]
      rw [hloop.2 hex]
      congr 1
      calc store.map (updW d store
            (((handleLoop d b top.user_id mn.user_id store).2.takeWhile
              fun u => !failsAt d failIds store u) ++ []))
          = processUsers d (store.map (updW d store []))
              ((handleLoop d b top.user_id mn.user_id store).2.takeWhile
                fun u => !failsAt d failIds store u) :=
            (processUsers_updW hnodup _ []).symm
        _ = processUsers d store
              ((handleLoop d b top.user_id mn.user_id store).2.takeWhile
                fun u => !failsAt d failIds store u) := by rw [hid]

/-- Claim C9: in a single run, every user with at least one approved record
is processed in exactly one batch window — the windows are pairwise
disjoint, contiguous and cover all approved user ids — so each such user
appears exactly once in the run's processing trace (and each user without
approved records never appears). -/
theorem claim_C9 (d b : Nat) (store : Store)
    (hnodup : (store.map fun r => r.id).Nodup) (hb : 0 < b) :
    ∀ uid, (handleTrace d b store).count uid =
      if hasApprovedUser store uid = true then 1 else 0 :=
  (handle_main (d := d) hnodup hb).2

/-- Claim C10: find_recent_verification selects the approved record with
the maximum updated_at among all of the user's approved records in the
whole table — the definition takes no window bounds, mirroring the source,
which filters self.sspv (the whole filtered table) by user_id only — and
it succeeds for every user owning an approved record. -/
theorem claim_C10 (store : Store) (uid : Nat) :
    (∀ r, find_recent_verification store uid = some r →
        r ∈ store ∧ approvedRec r = true ∧ r.user_id = uid ∧
        ∀ s ∈ store, approvedRec s = true → s.user_id = uid →
          s.updated_at ≤ r.updated_at) ∧
    ((∃ s ∈ store, approvedRec s = true ∧ s.user_id = uid) →
      (find_recent_verification store uid).isSome = true) :=
  ⟨fun _ h => find_recent_some h, fun h => hasApprovedUser_iff.2 h⟩

/-! ### Witnesses -/

theorem claim_C1_witness :
    ({ id := 1, user_id := 42, status := "approved", updated_at := 5,
        expiry_date := some 370 } : Record) ∈ handle 365 1000 exStore :=
  claim_C1 365 1000 exStore (by decide) (by decide) (by decide)
    ⟨1, 42, "approved", 5, none⟩ (by decide) (by decide) (by decide)

theorem claim_C2_witness :
    handle 365 1000 (handle 365 1000 exStore) = handle 365 1000 exStore :=
  claim_C2 365 1000 exStore (by decide) (by decide)

theorem claim_C3_witness :
    handle 365 7 exStore = handle 365 1 exStore :=
  claim_C3 365 7 exStore (by decide) (by decide)

theorem claim_C4_witness :
    handle 365 1000 exEmpty = exEmpty ∧ handleTrace 365 1000 exEmpty = [] ∧
      handleE 365 1000 [1] exEmpty = Except.ok exEmpty :=
  claim_C4 365 1000 [1] exEmpty (by decide)

theorem claim_C5_witness :
    handleLoop 365 1000 10 11 ([] : Store) = (([] : Store), ([] : List Nat)) ∧
    handleLoop 365 1000 10 5 ([] : Store) =
      ((handleLoop 365 1000 10 1005
          (processUsers 365 ([] : Store) (windowUsers ([] : Store) 5 1005))).1,
        windowUsers ([] : Store) 5 1005 ++
          (handleLoop 365 1000 10 1005
            (processUsers 365 ([] : Store) (windowUsers ([] : Store) 5 1005))).2) :=
  ⟨(claim_C5 365 1000 10 (by decide)).1 11 ([] : Store) (by decide),
   (claim_C5 365 1000 10 (by decide)).2 5 ([] : Store) (by decide)⟩

theorem claim_C6_witness :
    ∃ mx mn : Record,
      (sspv exStore).head? = some mx ∧
      (sspv exStore).reverse.head? = some mn ∧
      (∃ r ∈ exStore, approvedRec r = true ∧ r.user_id = mx.user_id) ∧
      (∀ r ∈ exStore, approvedRec r = true → r.user_id ≤ mx.user_id) ∧
      (∃ r ∈ exStore, approvedRec r = true ∧ r.user_id = mn.user_id) ∧
      (∀ r ∈ exStore, approvedRec r = true → mn.user_id ≤ r.user_id) ∧
      handle 365 1000 exStore =
        (handleLoop 365 1000 mx.user_id mn.user_id exStore).1 ∧
      handleLoop 365 1000 mx.user_id mn.user_id exStore =
        ((handleLoop 365 1000 mx.user_id (mn.user_id + 1000)
            (processUsers 365 exStore
              (windowUsers exStore mn.user_id (mn.user_id + 1000)))).1,
          windowUsers exStore mn.user_id (mn.user_id + 1000) ++
            (handleLoop 365 1000 mx.user_id (mn.user_id + 1000)
              (processUsers 365 exStore
                (windowUsers exStore mn.user_id (mn.user_id + 1000)))).2) :=
  claim_C6 365 1000 exStore (by decide) ⟨⟨1, 42, "approved", 5, none⟩, by decide, by decide⟩

theorem claim_C7_witness :
    (handle 365 1000 exStore).map (fun r => r.id) = exStore.map (fun r => r.id) ∧
    (handle 365 1000 exStore)[1]? = some ⟨2, 42, "approved", 1, none⟩ :=
  ⟨(claim_C7 365 1000 exStore (by decide) (by decide)).1,
   (claim_C7 365 1000 exStore (by decide) (by decide)).2 1
     ⟨2, 42, "approved", 1, none⟩ (by decide) (by decide)⟩

theorem exFail_trace : handleTrace 30 1000 exFail = [8, 5] := by
  show (handleLoop 30 1000 8 5 exFail).2 = [8, 5]
  rw [handleLoop_step (by decide) (by decide),
    handleLoop_stop (show (8 : Nat) < 5 + 1000 from by decide)]
  rfl

theorem claim_C8_witness :
    handleE 30 1000 [] exFail = Except.ok (handle 30 1000 exFail) ∧
    handleE 30 1000 [1] exFail =
      Except.error (processUsers 30 exFail
        ((handleTrace 30 1000 exFail).takeWhile
          fun uid => !failsAt 30 [1] exFail uid)) :=
  ⟨(claim_C8 30 1000 exFail [1] (by decide) (by decide)).1,
   (claim_C8 30 1000 exFail [1] (by decide) (by decide)).2
     (by rw [exFail_trace]; decide)⟩

theorem claim_C9_witness :
    (handleTrace 365 1000 exStore).count 42 = 1 := by
  have h := claim_C9 365 1000 exStore (by decide) (by decide) 42
  rw [if_pos (by decide)] at h
  exact h

theorem claim_C10_witness :
    ((⟨1, 42, "approved", 5, none⟩ : Record) ∈ exStore ∧
      approvedRec ⟨1, 42, "approved", 5, none⟩ = true ∧
      (⟨1, 42, "approved", 5, none⟩ : Record).user_id = 42 ∧
      ∀ s ∈ exStore, approvedRec s = true → s.user_id = 42 →
        s.updated_at ≤ (⟨1, 42, "approved", 5, none⟩ : Record).updated_at) ∧
    (find_recent_verification exStore 9).isSome = true :=
  ⟨(claim_C10 exStore 42).1 ⟨1, 42, "approved", 5, none⟩ (by decide),
   (claim_C10 exStore 9).2 ⟨⟨4, 9, "approved", 2, none⟩, by decide, by decide, by decide⟩⟩
